import Mathlib

/-!
# Atom simulator: digit input and shell layout

A shallow embedding of `src/main.cpp`: the global variables become the fields
of `State`, the GLUT callbacks `keyboard`, `subMenu` and `display` become
functions on it.  The elapsed-time reading `glutGet(GLUT_ELAPSED_TIME)` is an
explicit argument.  The arithmetic of the C floating types is a parameter
(`FloatOps`); `binary32Ops` interprets it over the rationals with IEEE 754
binary32 rounding.  The integer arithmetic is exact with explicit wrap-around
(`int` of 32 bits, `unsigned long` of 64 bits).  The OpenGL calls are
represented by what they draw (`Frame`); the line printed by `keyboard` is
not represented.
-/

namespace AtomSimulator

/-! ## Machine integers -/

/-- Smallest value of a 32-bit `int`. -/
def INT_MIN : Int := -2147483648

/-- Largest value of a 32-bit `int`. -/
def INT_MAX : Int := 2147483647

/-- Result of an `int` operation whose exact value is `x`: reduced into
`[INT_MIN, INT_MAX]` modulo `2^32`. -/
def wrapInt (x : Int) : Int := (x + 2147483648) % 4294967296 - 2147483648

/-- Number of values of an `unsigned long` (64 bits). -/
def ULONG_MOD : Nat := 18446744073709551616

/-- Conversion of an `int` to `unsigned long`. -/
def toUnsignedLong (t : Int) : Nat := (t % (ULONG_MOD : Int)).toNat

/-- Subtraction `a - b` of two `unsigned long` values. -/
def subUnsignedLong (a b : Nat) : Nat := (a % ULONG_MOD + ULONG_MOD - b % ULONG_MOD) % ULONG_MOD

/-! ## Global data (main.cpp lines 8-57) -/

/-- `int maxElectronsInShells[7]`. -/
def maxElectronsInShells : List Int := [2, 8, 18, 32, 32, 18, 8]

/-- `const char *elementNames[118]`. -/
def elementNames : List String := [
    "Hydrogen", "Helium", "Lithium", "Beryllium", "Boron", "Carbon", "Nitrogen", "Oxygen",
    "Fluorine", "Neon", "Sodium", "Magnesium", "Aluminum", "Silicon", "Phosphorus", "Sulfur",
    "Chlorine", "Argon", "Potassium", "Calcium", "Scandium", "Titanium", "Vanadium", "Chromium",
    "Manganese", "Iron", "Cobalt", "Nickel", "Copper", "Zinc", "Gallium", "Germanium",
    "Arsenic", "Selenium", "Bromine", "Krypton", "Rubidium", "Strontium", "Yttrium", "Zirconium",
    "Niobium", "Molybdenum", "Technetium", "Ruthenium", "Rhodium", "Palladium", "Silver", "Cadmium",
    "Indium", "Tin", "Antimony", "Tellurium", "Iodine", "Xenon", "Cesium", "Barium",
    "Lanthanum", "Cerium", "Praseodymium", "Neodymium", "Promethium", "Samarium", "Europium", "Gadolinium",
    "Terbium", "Dysprosium", "Holmium", "Erbium", "Thulium", "Ytterbium", "Lutetium", "Hafnium",
    "Tantalum", "Tungsten", "Rhenium", "Osmium", "Iridium", "Platinum", "Gold", "Mercury",
    "Thallium", "Lead", "Bismuth", "Polonium", "Astatine", "Radon", "Francium", "Radium",
    "Actinium", "Thorium", "Protactinium", "Uranium", "Neptunium", "Plutonium", "Americium", "Curium",
    "Berkelium", "Californium", "Einsteinium", "Fermium", "Mendelevium", "Nobelium", "Lawrencium",
    "Rutherfordium", "Dubnium", "Seaborgium", "Bohrium", "Hassium", "Meitnerium", "Darmstadtium",
    "Roentgenium", "Copernicium", "Nihonium", "Flerovium", "Moscovium", "Livermorium", "Tennessine", "Oganesson"]

/-- `const unsigned long inputDelay = 1500`. -/
def inputDelay : Nat := 1500

/-- The terminating byte of a C string. -/
def NUL : Char := Char.ofNat 0

/-- The mutable globals of the program.  `elementName` and `errorMessage` are
the byte buffers `char[20]` and `char[50]`. -/
structure State where
  numElectrons : Int
  elementName : List Char
  errorMessage : List Char
  currentInputNumber : Int
  isInputtingNumber : Bool
  inputInProgress : Bool
  lastInputTime : Nat
  lastDigitTime : Nat
  electronsMoving : Bool
  deriving DecidableEq

/-- A string literal stored in a buffer of `size` bytes: the characters, then
zero bytes up to the size. -/
def charArray (size : Nat) (text : String) : List Char :=
  text.toList ++ List.replicate (size - text.length) NUL

/-- The values the globals are initialised with. -/
def initialState : State where
  numElectrons := 1
  elementName := charArray 20 "Hydrogen"
  errorMessage := charArray 50 ""
  currentInputNumber := 0
  isInputtingNumber := false
  inputInProgress := false
  lastInputTime := 0
  lastDigitTime := 0
  electronsMoving := false

/-! ## C strings -/

/-- The C string held in a buffer: the bytes before the first zero byte. -/
def cstring (buf : List Char) : List Char := buf.takeWhile (fun c => c != NUL)

/-- `strncpy(dest, src, n)`: the first `n` characters of the C string `src`,
padded with zero bytes to `n` bytes; the bytes of `dest` from `n` on are kept. -/
def strncpy (dest : List Char) (src : List Char) (n : Nat) : List Char :=
  (cstring src).take n ++ List.replicate (n - (cstring src).length) NUL ++ dest.drop n

/-- The read `elementNames[index]`: `none` when the index is outside the array. -/
def elementNamesAt (index : Int) : Option String :=
  if index < 0 then none else elementNames.get? index.toNat

/-! ## keyboard (main.cpp lines 270-305) -/

/-- Outcome of a callback: it returns with the globals in state `s`, or it
reads `elementNames` outside its bounds, the globals being `s` at that point. -/
inductive Result where
  | ok (s : State)
  | outOfBounds (s : State) (index : Int)
  deriving DecidableEq

/-- The globals at the end of a callback, or at its out-of-bounds read. -/
def Result.state : Result → State
  | .ok s => s
  | .outOfBounds s _ => s

/-- The globals after lines 274-295 of `keyboard` for a digit key: the pending
number is updated, clamped and committed to `numElectrons`. -/
def keyboardCommit (key : Nat) (currentTime : Nat) (s : State) : State :=
  let s1 : State :=
    if subUnsignedLong currentTime s.lastDigitTime < inputDelay ∧ s.isInputtingNumber = true then
      { s with currentInputNumber := wrapInt (wrapInt (s.currentInputNumber * 10) + ((key : Int) - 48)) }
    else
      { s with currentInputNumber := (key : Int) - 48, isInputtingNumber := true }
  let s2 : State := { s1 with lastDigitTime := currentTime }
  let s3 : State := if s2.currentInputNumber > 118 then { s2 with currentInputNumber := 118 } else s2
  { s3 with numElectrons := s3.currentInputNumber }

/-- The callback `keyboard(key, x, y)`; `key` is the value of the
`unsigned char`, `elapsed` the value returned by `glutGet(GLUT_ELAPSED_TIME)`.
The mouse position is not used. -/
def keyboard (key : Nat) (elapsed : Int) (s : State) : Result :=
  if 48 ≤ key ∧ key ≤ 57 then
    let currentTime := toUnsignedLong elapsed
    let s4 := keyboardCommit key currentTime s
    let index := wrapInt (s4.numElectrons - 1)
    match elementNamesAt index with
    | none => .outOfBounds s4 index
    | some name =>
      .ok { s4 with
            elementName := (strncpy s4.elementName name.toList 19).set 19 NUL
            lastInputTime := currentTime }
  else
    .ok s

/-! ## subMenu (main.cpp lines 312-326) -/

/-- The callback `subMenu(option)`. -/
def subMenu (option : Int) (s : State) : State :=
  let s1 : State := if option = 1 then { s with electronsMoving := false } else s
  if option = 2 then { s1 with electronsMoving := true } else s1

/-- The states the program can be in: the initial one, and those reached
from it by callbacks that return. -/
inductive Reachable : State → Prop
  | init : Reachable initialState
  | keyboard {s s' : State} (key : Nat) (elapsed : Int) :
      Reachable s → keyboard key elapsed s = Result.ok s' → Reachable s'
  | subMenu {s : State} (option : Int) : Reachable s → Reachable (subMenu option s)

/-- Runs `keyboard` on a sequence of (key, elapsed time) events, stopping at
the first out-of-bounds read. -/
def runKeys : State → List (Nat × Int) → Result
  | s, [] => .ok s
  | s, (key, elapsed) :: rest =>
    match keyboard key elapsed s with
    | .ok s' => runKeys s' rest
    | .outOfBounds s' index => .outOfBounds s' index

/-- The pending number lies in `[0, 118]`. -/
def PendingInRange (s : State) : Prop :=
  0 ≤ s.currentInputNumber ∧ s.currentInputNumber ≤ 118

/-- Numeric value of a sequence of decimal digits, most significant first. -/
def digitsValue (digits : List Nat) : Nat := digits.foldl (fun acc d => 10 * acc + d) 0

/-- A value clamped to `[1, 118]`. -/
def clampSelection (v : Int) : Int := max 1 (min v 118)

/-- The key events of a sequence of (digit, elapsed time) keystrokes: digit
`d` is the key `'0' + d`. -/
def digitKeys (strokes : List (Nat × Int)) : List (Nat × Int) :=
  strokes.map (fun e => (48 + e.1, e.2))

/-- Every keystroke arrives at or after the previous one, whose time was
`last`, and less than 1500 ms after it. -/
def WithinWindow : Nat → List (Nat × Int) → Prop
  | _, [] => True
  | last, (_, elapsed) :: rest =>
    last ≤ toUnsignedLong elapsed ∧ toUnsignedLong elapsed - last < 1500 ∧
      WithinWindow (toUnsignedLong elapsed) rest

/-- The periodic table of the elements in order of atomic number: atomic
number, symbol and English name (the 118 names approved by IUPAC, elements 13
and 55 in their American spellings).  The reference that `elementNames` is
compared with. -/
def periodicTable : List (Nat × String × String) := [
  -- period 1
  (1, "H", "Hydrogen"), (2, "He", "Helium"),
  -- period 2
  (3, "Li", "Lithium"), (4, "Be", "Beryllium"), (5, "B", "Boron"), (6, "C", "Carbon"),
  (7, "N", "Nitrogen"), (8, "O", "Oxygen"), (9, "F", "Fluorine"), (10, "Ne", "Neon"),
  -- period 3
  (11, "Na", "Sodium"), (12, "Mg", "Magnesium"), (13, "Al", "Aluminum"), (14, "Si", "Silicon"),
  (15, "P", "Phosphorus"), (16, "S", "Sulfur"), (17, "Cl", "Chlorine"), (18, "Ar", "Argon"),
  -- period 4
  (19, "K", "Potassium"), (20, "Ca", "Calcium"), (21, "Sc", "Scandium"), (22, "Ti", "Titanium"),
  (23, "V", "Vanadium"), (24, "Cr", "Chromium"), (25, "Mn", "Manganese"), (26, "Fe", "Iron"),
  (27, "Co", "Cobalt"), (28, "Ni", "Nickel"), (29, "Cu", "Copper"), (30, "Zn", "Zinc"),
  (31, "Ga", "Gallium"), (32, "Ge", "Germanium"), (33, "As", "Arsenic"), (34, "Se", "Selenium"),
  (35, "Br", "Bromine"), (36, "Kr", "Krypton"),
  -- period 5
  (37, "Rb", "Rubidium"), (38, "Sr", "Strontium"), (39, "Y", "Yttrium"), (40, "Zr", "Zirconium"),
  (41, "Nb", "Niobium"), (42, "Mo", "Molybdenum"), (43, "Tc", "Technetium"), (44, "Ru", "Ruthenium"),
  (45, "Rh", "Rhodium"), (46, "Pd", "Palladium"), (47, "Ag", "Silver"), (48, "Cd", "Cadmium"),
  (49, "In", "Indium"), (50, "Sn", "Tin"), (51, "Sb", "Antimony"), (52, "Te", "Tellurium"),
  (53, "I", "Iodine"), (54, "Xe", "Xenon"),
  -- period 6
  (55, "Cs", "Cesium"), (56, "Ba", "Barium"), (57, "La", "Lanthanum"), (58, "Ce", "Cerium"),
  (59, "Pr", "Praseodymium"), (60, "Nd", "Neodymium"), (61, "Pm", "Promethium"), (62, "Sm", "Samarium"),
  (63, "Eu", "Europium"), (64, "Gd", "Gadolinium"), (65, "Tb", "Terbium"), (66, "Dy", "Dysprosium"),
  (67, "Ho", "Holmium"), (68, "Er", "Erbium"), (69, "Tm", "Thulium"), (70, "Yb", "Ytterbium"),
  (71, "Lu", "Lutetium"), (72, "Hf", "Hafnium"), (73, "Ta", "Tantalum"), (74, "W", "Tungsten"),
  (75, "Re", "Rhenium"), (76, "Os", "Osmium"), (77, "Ir", "Iridium"), (78, "Pt", "Platinum"),
  (79, "Au", "Gold"), (80, "Hg", "Mercury"), (81, "Tl", "Thallium"), (82, "Pb", "Lead"),
  (83, "Bi", "Bismuth"), (84, "Po", "Polonium"), (85, "At", "Astatine"), (86, "Rn", "Radon"),
  -- period 7
  (87, "Fr", "Francium"), (88, "Ra", "Radium"), (89, "Ac", "Actinium"), (90, "Th", "Thorium"),
  (91, "Pa", "Protactinium"), (92, "U", "Uranium"), (93, "Np", "Neptunium"), (94, "Pu", "Plutonium"),
  (95, "Am", "Americium"), (96, "Cm", "Curium"), (97, "Bk", "Berkelium"), (98, "Cf", "Californium"),
  (99, "Es", "Einsteinium"), (100, "Fm", "Fermium"), (101, "Md", "Mendelevium"), (102, "No", "Nobelium"),
  (103, "Lr", "Lawrencium"), (104, "Rf", "Rutherfordium"), (105, "Db", "Dubnium"), (106, "Sg", "Seaborgium"),
  (107, "Bh", "Bohrium"), (108, "Hs", "Hassium"), (109, "Mt", "Meitnerium"), (110, "Ds", "Darmstadtium"),
  (111, "Rg", "Roentgenium"), (112, "Cn", "Copernicium"), (113, "Nh", "Nihonium"), (114, "Fl", "Flerovium"),
  (115, "Mc", "Moscovium"), (116, "Lv", "Livermorium"), (117, "Ts", "Tennessine"), (118, "Og", "Oganesson")]

/-! ## display (main.cpp lines 157-216) -/

/-- The arithmetic of the C types `float` and `double` as `display` uses it,
left uninterpreted: the operations, the conversions and the literals. -/
structure FloatOps (F : Type) where
  add : F → F → F
  mul : F → F → F
  div : F → F → F
  cos : F → F
  sin : F → F
  ofInt : Int → F
  toFloat : F → F
  pi : F
  baseOrbitRadius : F
  lit_0_4 : F
  lit_0_9 : F
  lit_1000 : F

/-- One electron drawn by `display`: its angle and the position of its sphere. -/
structure ElectronDraw (F : Type) where
  angle : F
  x : F
  y : F

/-- One iteration of the shell loop: the orbit drawn and the electrons on it. -/
structure ShellDraw (F : Type) where
  shell : Nat
  orbitRadius : F
  electronsInThisShell : Int
  electrons : List (ElectronDraw F)

/-- The expression `(2 * M_PI / electronsInThisShell) * i`. -/
def baseAngle {F : Type} (ops : FloatOps F) (electronsInThisShell : Int) (i : Nat) : F :=
  ops.mul (ops.div (ops.mul (ops.ofInt 2) ops.pi) (ops.ofInt electronsInThisShell)) (ops.ofInt i)

/-- The `float angle` of electron `i` (lines 186-195). -/
def electronAngle {F : Type} (ops : FloatOps F) (electronsMoving : Bool) (time : F)
    (electronsInThisShell : Int) (i : Nat) : F :=
  if electronsMoving then
    ops.toFloat (ops.add (ops.mul time ops.lit_0_9) (baseAngle ops electronsInThisShell i))
  else
    ops.toFloat (baseAngle ops electronsInThisShell i)

/-- Body of the electron loop (lines 186-202). -/
def drawElectron {F : Type} (ops : FloatOps F) (electronsMoving : Bool) (time : F)
    (currentOrbitRadius : F) (electronsInThisShell : Int) (i : Nat) : ElectronDraw F :=
  let angle := electronAngle ops electronsMoving time electronsInThisShell i
  { angle := angle
    x := ops.toFloat (ops.mul currentOrbitRadius (ops.cos angle))
    y := ops.toFloat (ops.mul currentOrbitRadius (ops.sin angle)) }

/-- The shell loop (lines 176-207), started at `shell` with the given orbit
radius and remaining electrons; returns the shells drawn and the final value
of `remainingElectrons`.  `fuel` bounds the number of iterations. -/
def shellLoop {F : Type} (ops : FloatOps F) (electronsMoving : Bool) (time : F) :
    Nat → Nat → F → Int → List (ShellDraw F) × Int
  | 0, _, _, remainingElectrons => ([], remainingElectrons)
  | fuel + 1, shell, currentOrbitRadius, remainingElectrons =>
    if h : shell < 7 ∧ remainingElectrons > 0 then
      let capacity := maxElectronsInShells.get ⟨shell, h.1⟩
      let electronsInThisShell :=
        if remainingElectrons > capacity then capacity else remainingElectrons
      let electrons := (List.range electronsInThisShell.toNat).map
        (drawElectron ops electronsMoving time currentOrbitRadius electronsInThisShell)
      let rest := shellLoop ops electronsMoving time fuel (shell + 1)
        (ops.toFloat (ops.add currentOrbitRadius ops.lit_0_4))
        (remainingElectrons - electronsInThisShell)
      ({ shell := shell, orbitRadius := currentOrbitRadius,
         electronsInThisShell := electronsInThisShell, electrons := electrons } :: rest.1, rest.2)
    else
      ([], remainingElectrons)

/-- What one call of `display` draws. -/
structure Frame (F : Type) where
  text : List Char
  shells : List (ShellDraw F)
  remainingElectrons : Int
  errorText : Option (List Char)

/-- The callback `display()`; `elapsed` is the value returned by
`glutGet(GLUT_ELAPSED_TIME)`.  Seven iterations exhaust the loop condition
`shell < 7`. -/
def display {F : Type} (ops : FloatOps F) (elapsed : Int) (s : State) : Frame F :=
  let time := ops.toFloat (ops.div (ops.ofInt elapsed) ops.lit_1000)
  let loop := shellLoop ops s.electronsMoving time 7 0 ops.baseOrbitRadius s.numElectrons
  { text := cstring s.elementName
    shells := loop.1
    remainingElectrons := loop.2
    errorText := if (cstring s.errorMessage).length > 0 then some (cstring s.errorMessage) else none }

/-- Number of electrons `display` places on shell `shell`: the count of the
iteration that drew it, `0` when the loop ended before reaching it. -/
def shellCount {F : Type} (shells : List (ShellDraw F)) (shell : Nat) : Int :=
  match shells.find? (fun d => d.shell == shell) with
  | some d => d.electronsInThisShell
  | none => 0

/-- Number of electrons one call of `display` places on shell `shell`. -/
def Frame.electronsInShell {F : Type} (frame : Frame F) (shell : Nat) : Int :=
  shellCount frame.shells shell

/-- Total number of electrons `display` places, over all the shells it draws. -/
def Frame.electronsPlaced {F : Type} (frame : Frame F) : Int :=
  (frame.shells.map (fun d => d.electronsInThisShell)).sum

/-- Sum of the capacities of the shells inside `shell`. -/
def innerCapacity (shell : Nat) : Int := (maxElectronsInShells.take shell).sum

/-- Terms over the floating-point operations: the expressions `display`
evaluates, kept symbolic. -/
inductive FloatExpr where
  | ofInt (n : Int)
  | pi
  | baseOrbitRadius
  | lit_0_4
  | lit_0_9
  | lit_1000
  | add (a b : FloatExpr)
  | mul (a b : FloatExpr)
  | div (a b : FloatExpr)
  | cos (a : FloatExpr)
  | sin (a : FloatExpr)
  | toFloat (a : FloatExpr)
  deriving DecidableEq

/-- The operations building symbolic terms. -/
def symbolicOps : FloatOps FloatExpr where
  add := FloatExpr.add
  mul := FloatExpr.mul
  div := FloatExpr.div
  cos := FloatExpr.cos
  sin := FloatExpr.sin
  ofInt := FloatExpr.ofInt
  toFloat := FloatExpr.toFloat
  pi := FloatExpr.pi
  baseOrbitRadius := FloatExpr.baseOrbitRadius
  lit_0_4 := FloatExpr.lit_0_4
  lit_0_9 := FloatExpr.lit_0_9
  lit_1000 := FloatExpr.lit_1000

/-- What an iteration of the shell loop draws apart from the electrons'
positions: the shell, its orbit radius, its electron count and the number of
spheres drawn. -/
def ShellDraw.layout {F : Type} (d : ShellDraw F) : Nat × F × Int × Nat :=
  (d.shell, d.orbitRadius, d.electronsInThisShell, d.electrons.length)

/-! ## Binary floating point -/

/-- Floor of the base-2 logarithm of a positive rational `x`: the integer `e`
with `2^e ≤ x < 2^(e+1)`. -/
def binaryExponent (x : ℚ) : Int :=
  if 1 ≤ x then
    (Nat.log2 (x.num.toNat / x.den) : Int)
  else
    let c := (x.den + x.num.toNat - 1) / x.num.toNat
    Int.neg (if c ≤ 1 then 0 else Nat.log2 (c - 1) + 1 : Nat)

/-- The integer nearest to `x`; the even one of the two when `x` lies halfway. -/
def roundHalfEven (x : ℚ) : Int :=
  if x - ⌊x⌋ < 1 / 2 then ⌊x⌋
  else if 1 / 2 < x - ⌊x⌋ then ⌊x⌋ + 1
  else if ⌊x⌋ % 2 = 0 then ⌊x⌋ else ⌊x⌋ + 1

/-- Rounding of a real value to the binary floating-point format with
`precision` significand bits and least exponent `emin`, to nearest, ties to
even (the default IEEE 754 rounding): the nearest multiple of the unit in the
last place of the binade of `x`.  Values beyond the largest finite number of
the format are rounded the same way, not to an infinity. -/
def roundBinary (precision : Nat) (emin : Int) (x : ℚ) : ℚ :=
  if x = 0 then 0
  else
    let e := max (binaryExponent |x|) emin
    let ulp : ℚ := (2 : ℚ) ^ (e - ((precision : Int) - 1))
    roundHalfEven (x / ulp) * ulp

/-- Rounding to the C type `float` (IEEE 754 binary32). -/
def roundBinary32 (x : ℚ) : ℚ := roundBinary 24 (-126) x

/-- Rounding to the C type `double` (IEEE 754 binary64). -/
def roundBinary64 (x : ℚ) : ℚ := roundBinary 53 (-1022) x

/-- The value of `currentOrbitRadius` after `s` executions of
`currentOrbitRadius += 0.4f`, started at `1.0f`, in binary32 arithmetic. -/
def radiusAfter : Nat → ℚ
  | 0 => 1
  | s + 1 => roundBinary32 (radiusAfter s + roundBinary32 (2 / 5))

/-- The floating-point operations over the rationals: the arithmetic
operations are exact and `toFloat`, applied where `display` stores a value in
a `float`, rounds to binary32, so that a `float` operation is the correctly
rounded one; the literals are the values of the C literals.  `cos` and `sin`
are not rational functions: they stand as the leading terms of their series,
and nothing proved about the orbit radii depends on them. -/
def binary32Ops : FloatOps ℚ where
  add := fun a b => a + b
  mul := fun a b => a * b
  div := fun a b => a / b
  cos := fun a => 1 - a * a / 2
  sin := fun a => a
  ofInt := fun n => n
  toFloat := roundBinary32
  pi := 884279719003555 / 281474976710656
  baseOrbitRadius := 1
  lit_0_4 := roundBinary32 (2 / 5)
  lit_0_9 := roundBinary64 (9 / 10)
  lit_1000 := 1000

/-! ## Machine arithmetic lemmas -/

theorem wrapInt_of_inRange (x : Int) (hlo : INT_MIN ≤ x) (hhi : x ≤ INT_MAX) : wrapInt x = x := by
  unfold INT_MIN at hlo
  unfold INT_MAX at hhi
  unfold wrapInt
  omega

theorem toUnsignedLong_lt (t : Int) : toUnsignedLong t < ULONG_MOD := by
  unfold toUnsignedLong ULONG_MOD
  omega

theorem toUnsignedLong_of_nonneg (t : Int) (h0 : 0 ≤ t) (h1 : t ≤ INT_MAX) :
    toUnsignedLong t = t.toNat := by
  unfold INT_MAX at h1
  unfold toUnsignedLong ULONG_MOD
  omega

theorem subUnsignedLong_of_le (a b : Nat) (hab : b ≤ a) (ha : a < ULONG_MOD) :
    subUnsignedLong a b = a - b := by
  unfold ULONG_MOD at ha
  unfold subUnsignedLong ULONG_MOD
  omega

theorem wrapInt_digit (c : Int) (key : Nat) (h0 : 0 ≤ c) (h1 : c ≤ 118) (hkey : key ≤ 57) :
    wrapInt (wrapInt (c * 10) + ((key : Int) - 48)) = c * 10 + ((key : Int) - 48) := by
  rw [wrapInt_of_inRange (c * 10) (by unfold INT_MIN; omega) (by unfold INT_MAX; omega)]
  exact wrapInt_of_inRange _ (by unfold INT_MIN; omega) (by unfold INT_MAX; omega)

/-! ## keyboard: the pending number -/

theorem keyboard_state_of_digit (key : Nat) (elapsed : Int) (s : State)
    (hkey : 48 ≤ key ∧ key ≤ 57) :
    (keyboard key elapsed s).state.currentInputNumber
        = (keyboardCommit key (toUnsignedLong elapsed) s).currentInputNumber ∧
    (keyboard key elapsed s).state.numElectrons
        = (keyboardCommit key (toUnsignedLong elapsed) s).numElectrons ∧
    (keyboard key elapsed s).state.isInputtingNumber
        = (keyboardCommit key (toUnsignedLong elapsed) s).isInputtingNumber ∧
    (keyboard key elapsed s).state.lastDigitTime
        = (keyboardCommit key (toUnsignedLong elapsed) s).lastDigitTime := by
  unfold keyboard
  rw [if_pos hkey]
  dsimp only
  split <;> simp [Result.state]

theorem keyboardCommit_numElectrons (key now : Nat) (s : State) :
    (keyboardCommit key now s).numElectrons = (keyboardCommit key now s).currentInputNumber := by
  unfold keyboardCommit
  rfl

theorem keyboardCommit_lastDigitTime (key now : Nat) (s : State) :
    (keyboardCommit key now s).lastDigitTime = now := by
  unfold keyboardCommit
  dsimp only
  split_ifs <;> rfl

theorem keyboardCommit_extend (key now : Nat) (s : State)
    (h : subUnsignedLong now s.lastDigitTime < inputDelay ∧ s.isInputtingNumber = true) :
    (keyboardCommit key now s).currentInputNumber
        = min (wrapInt (wrapInt (s.currentInputNumber * 10) + ((key : Int) - 48))) 118 ∧
    (keyboardCommit key now s).isInputtingNumber = true := by
  unfold keyboardCommit
  dsimp only
  rw [if_pos h]
  dsimp only
  split_ifs with h1
  · exact ⟨by dsimp only; omega, h.2⟩
  · exact ⟨by dsimp only; omega, h.2⟩

theorem keyboardCommit_fresh (key now : Nat) (s : State)
    (h : ¬ (subUnsignedLong now s.lastDigitTime < inputDelay ∧ s.isInputtingNumber = true)) :
    (keyboardCommit key now s).currentInputNumber = min ((key : Int) - 48) 118 ∧
    (keyboardCommit key now s).isInputtingNumber = true := by
  unfold keyboardCommit
  dsimp only
  rw [if_neg h]
  dsimp only
  split_ifs with h1
  · exact ⟨by dsimp only; omega, rfl⟩
  · exact ⟨by dsimp only; omega, rfl⟩

theorem keyboard_pendingInRange (key : Nat) (elapsed : Int) (s : State) (h : PendingInRange s) :
    PendingInRange (keyboard key elapsed s).state := by
  unfold PendingInRange at h ⊢
  by_cases hkey : 48 ≤ key ∧ key ≤ 57
  · rw [(keyboard_state_of_digit key elapsed s hkey).1]
    by_cases hc : subUnsignedLong (toUnsignedLong elapsed) s.lastDigitTime < inputDelay
        ∧ s.isInputtingNumber = true
    · rw [(keyboardCommit_extend key _ s hc).1, wrapInt_digit s.currentInputNumber key h.1 h.2 hkey.2]
      omega
    · rw [(keyboardCommit_fresh key _ s hc).1]
      omega
  · unfold keyboard
    rw [if_neg hkey]
    exact h

theorem subMenu_frame (option : Int) (s : State) :
    subMenu option s = { s with electronsMoving := (subMenu option s).electronsMoving } := by
  unfold subMenu
  dsimp only
  split_ifs <;> rfl

theorem reachable_pendingInRange (s : State) (h : Reachable s) : PendingInRange s := by
  induction h with
  | init => exact ⟨by decide, by decide⟩
  | keyboard key elapsed _ hstep ih =>
    have := keyboard_pendingInRange key elapsed _ ih
    rw [hstep] at this
    exact this
  | subMenu option _ ih =>
    rw [subMenu_frame]
    exact ih

/-! ## C strings and the element table -/

theorem cstring_of_noNUL (a : List Char) (h : ∀ c ∈ a, c ≠ NUL) : cstring a = a := by
  unfold cstring
  rw [List.takeWhile_eq_self_iff]
  intro c hc
  simpa using h c hc

theorem cstring_pad_set (k : Nat) (tail : List Char) :
    cstring (List.replicate k NUL ++ tail.set 0 NUL) = [] := by
  unfold cstring
  cases k with
  | zero =>
    cases tail with
    | nil => rfl
    | cons c tl => simp
  | succ k => simp [List.replicate_succ]

theorem cstring_strncpy_set (dest src : List Char) (hno : ∀ c ∈ src, c ≠ NUL)
    (hlen : src.length ≤ 19) :
    cstring ((strncpy dest src 19).set 19 NUL) = src := by
  unfold strncpy
  rw [cstring_of_noNUL src hno, List.take_of_length_le hlen, List.append_assoc,
    List.set_append_right 19 NUL hlen,
    List.set_append_right (19 - src.length) NUL (by simp)]
  have h0 : 19 - src.length - (List.replicate (19 - src.length) NUL).length = 0 := by simp
  rw [h0]
  have hpad := cstring_pad_set (19 - src.length) (List.drop 19 dest)
  unfold cstring at hpad ⊢
  rw [List.takeWhile_append_of_pos (by intro c hc; simpa using hno c hc), hpad, List.append_nil]

set_option maxRecDepth 100000 in
theorem elementNames_fit :
    ∀ name ∈ elementNames, name.length ≤ 19 ∧ ∀ c ∈ name.toList, c ≠ NUL := by
  decide

theorem elementNames_length : elementNames.length = 118 := by decide

theorem elementNamesAt_some (index : Int) (h0 : 0 ≤ index) (h1 : index ≤ 117) :
    ∃ name, elementNamesAt index = some name ∧ elementNames.get? index.toNat = some name
      ∧ name ∈ elementNames := by
  have hlt : index.toNat < elementNames.length := by
    rw [elementNames_length]
    omega
  refine ⟨elementNames.get ⟨index.toNat, hlt⟩, ?_, List.get?_eq_get hlt, List.get_mem _ _ _⟩
  unfold elementNamesAt
  rw [if_neg (by omega)]
  exact List.get?_eq_get hlt

theorem elementNamesAt_none (index : Int) (h : index < 0) : elementNamesAt index = none := by
  unfold elementNamesAt
  rw [if_pos h]

/-! ## keyboard: the table lookup -/

theorem keyboardCommit_numElectrons_le (key now : Nat) (s : State) :
    (keyboardCommit key now s).numElectrons ≤ 118 := by
  rw [keyboardCommit_numElectrons]
  by_cases hc : subUnsignedLong now s.lastDigitTime < inputDelay ∧ s.isInputtingNumber = true
  · rw [(keyboardCommit_extend key now s hc).1]
    omega
  · rw [(keyboardCommit_fresh key now s hc).1]
    omega

theorem keyboard_of_digit_pos (key : Nat) (elapsed : Int) (s : State)
    (hkey : 48 ≤ key ∧ key ≤ 57)
    (hpos : 1 ≤ (keyboardCommit key (toUnsignedLong elapsed) s).numElectrons) :
    ∃ name, name ∈ elementNames ∧
      elementNamesAt ((keyboardCommit key (toUnsignedLong elapsed) s).numElectrons - 1) = some name ∧
      elementNames.get? ((keyboardCommit key (toUnsignedLong elapsed) s).numElectrons - 1).toNat
        = some name ∧
      keyboard key elapsed s = Result.ok
        { keyboardCommit key (toUnsignedLong elapsed) s with
          elementName :=
            (strncpy (keyboardCommit key (toUnsignedLong elapsed) s).elementName name.toList 19).set
              19 NUL
          lastInputTime := toUnsignedLong elapsed } := by
  have hle := keyboardCommit_numElectrons_le key (toUnsignedLong elapsed) s
  obtain ⟨name, hat, hget, hmem⟩ := elementNamesAt_some
    ((keyboardCommit key (toUnsignedLong elapsed) s).numElectrons - 1) (by omega) (by omega)
  refine ⟨name, hmem, hat, hget, ?_⟩
  unfold keyboard
  rw [if_pos hkey]
  dsimp only
  rw [wrapInt_of_inRange _ (by unfold INT_MIN; omega) (by unfold INT_MAX; omega), hat]

theorem keyboard_of_digit_zero (key : Nat) (elapsed : Int) (s : State)
    (hkey : 48 ≤ key ∧ key ≤ 57)
    (hzero : (keyboardCommit key (toUnsignedLong elapsed) s).numElectrons = 0) :
    keyboard key elapsed s
      = Result.outOfBounds (keyboardCommit key (toUnsignedLong elapsed) s) (-1) := by
  unfold keyboard
  rw [if_pos hkey]
  dsimp only
  rw [hzero]
  rfl

/-! ## Claims about keyboard -/

/-- C2: for a digit `d` pressed at a time `now` not before `lastDigitTime`, in
a state whose pending number times ten plus `d` is representable as an `int`
(every reachable state is such), `keyboard` sets the pending number to
`min (10 * currentInputNumber + d) 118` when accumulation is active and
`now - lastDigitTime < 1500`, and to `d` otherwise (when the pending number
was not 0 the two values differ, so the first is the result if and only if
the condition holds); the pending number is committed to `numElectrons` and
`lastDigitTime` becomes `now`. -/
theorem keyboard_pending_number (s : State) (d : Nat) (elapsed : Int) (hd : d ≤ 9)
    (hnow : s.lastDigitTime ≤ toUnsignedLong elapsed)
    (hlo : INT_MIN ≤ s.currentInputNumber * 10)
    (hhi : s.currentInputNumber * 10 + d ≤ INT_MAX) :
    (s.isInputtingNumber = true ∧ toUnsignedLong elapsed - s.lastDigitTime < 1500 →
      (keyboard (48 + d) elapsed s).state.currentInputNumber
        = min (10 * s.currentInputNumber + d) 118) ∧
    (¬ (s.isInputtingNumber = true ∧ toUnsignedLong elapsed - s.lastDigitTime < 1500) →
      (keyboard (48 + d) elapsed s).state.currentInputNumber = d) ∧
    (s.currentInputNumber ≠ 0 →
      ((keyboard (48 + d) elapsed s).state.currentInputNumber
          = min (10 * s.currentInputNumber + d) 118 ↔
        s.isInputtingNumber = true ∧ toUnsignedLong elapsed - s.lastDigitTime < 1500)) ∧
    (keyboard (48 + d) elapsed s).state.isInputtingNumber = true ∧
    (keyboard (48 + d) elapsed s).state.numElectrons
      = (keyboard (48 + d) elapsed s).state.currentInputNumber ∧
    (keyboard (48 + d) elapsed s).state.lastDigitTime = toUnsignedLong elapsed := by
  have hkey : 48 ≤ 48 + d ∧ 48 + d ≤ 57 := by omega
  obtain ⟨hc, hn, hi, ht⟩ := keyboard_state_of_digit (48 + d) elapsed s hkey
  have hsub := subUnsignedLong_of_le _ _ hnow (toUnsignedLong_lt elapsed)
  have hcast : (((48 + d : Nat) : Int) - 48) = (d : Int) := by omega
  rw [hc, hn, hi, ht, keyboardCommit_numElectrons, keyboardCommit_lastDigitTime]
  by_cases hcond : subUnsignedLong (toUnsignedLong elapsed) s.lastDigitTime < inputDelay
      ∧ s.isInputtingNumber = true
  · obtain ⟨hval, hflag⟩ := keyboardCommit_extend (48 + d) _ s hcond
    have hw1 : wrapInt (s.currentInputNumber * 10) = s.currentInputNumber * 10 :=
      wrapInt_of_inRange _ hlo (by omega)
    have hw2 : wrapInt (s.currentInputNumber * 10 + (d : Int)) = s.currentInputNumber * 10 + d :=
      wrapInt_of_inRange _ (by omega) hhi
    rw [hcast, hw1, hw2] at hval
    have hpos : s.isInputtingNumber = true ∧ toUnsignedLong elapsed - s.lastDigitTime < 1500 :=
      ⟨hcond.2, by rw [← hsub]; exact hcond.1⟩
    refine ⟨fun _ => ?_, fun hneg => absurd hpos hneg, fun _ => ⟨fun _ => hpos, fun _ => ?_⟩,
      hflag, rfl, rfl⟩
    · rw [hval, Int.mul_comm]
    · rw [hval, Int.mul_comm]
  · obtain ⟨hval, hflag⟩ := keyboardCommit_fresh (48 + d) _ s hcond
    rw [hcast] at hval
    have hneg : ¬ (s.isInputtingNumber = true ∧ toUnsignedLong elapsed - s.lastDigitTime < 1500) :=
      fun hpos => hcond ⟨by rw [hsub]; exact hpos.2, hpos.1⟩
    have hd' : (keyboardCommit (48 + d) (toUnsignedLong elapsed) s).currentInputNumber = d := by
      rw [hval]
      omega
    refine ⟨fun hpos => absurd hpos hneg, fun _ => hd', fun hne => ⟨fun heq => ?_, fun hpos =>
      absurd hpos hneg⟩, hflag, rfl, rfl⟩
    rw [hd'] at heq
    omega

/-- Witness of C2: `'1'` at t = 0 then `'2'` at t = 2000 leaves the pending
number and the selection at 2, not 12. -/
theorem keyboard_pending_number_witness :
    (keyboard 49 0 initialState).state.currentInputNumber = 1 ∧
    (keyboard 49 0 initialState).state.lastDigitTime = 0 ∧
    (keyboard 50 2000 (keyboard 49 0 initialState).state).state.currentInputNumber = 2 ∧
    (keyboard 50 2000 (keyboard 49 0 initialState).state).state.numElectrons = 2 :=
  have h := keyboard_pending_number (keyboard 49 0 initialState).state 2 2000 (by decide)
    (by decide) (by decide) (by decide)
  ⟨by decide, by decide, h.2.1 (by decide), h.2.2.2.2.1.trans (h.2.1 (by decide))⟩

/-- C3: in the initial state and in every reachable state the pending number
is in `[0, 118]`; it is so again after `keyboard` with any key at any time;
hence for a digit `d` the value `10 * currentInputNumber + d` is at most 1189
and the `int` arithmetic computing it does not wrap. -/
theorem pending_number_bounded (s : State) (h : Reachable s) :
    (0 ≤ initialState.currentInputNumber ∧ initialState.currentInputNumber ≤ 118) ∧
    (0 ≤ s.currentInputNumber ∧ s.currentInputNumber ≤ 118) ∧
    (∀ (key : Nat) (elapsed : Int),
      0 ≤ (keyboard key elapsed s).state.currentInputNumber ∧
      (keyboard key elapsed s).state.currentInputNumber ≤ 118) ∧
    (∀ d : Nat, d ≤ 9 →
      0 ≤ s.currentInputNumber * 10 + d ∧ s.currentInputNumber * 10 + d ≤ 1189 ∧
      s.currentInputNumber * 10 ≤ INT_MAX ∧ s.currentInputNumber * 10 + d ≤ INT_MAX ∧
      wrapInt (wrapInt (s.currentInputNumber * 10) + d) = s.currentInputNumber * 10 + d) := by
  have hs := reachable_pendingInRange s h
  refine ⟨⟨by decide, by decide⟩, hs, fun key elapsed => keyboard_pendingInRange key elapsed s hs,
    fun d hd => ?_⟩
  unfold PendingInRange at hs
  have hw := wrapInt_digit s.currentInputNumber (48 + d) hs.1 hs.2 (by omega)
  have hcast : (((48 + d : Nat) : Int) - 48) = (d : Int) := by omega
  rw [hcast] at hw
  refine ⟨by omega, by omega, ?_, ?_, hw⟩ <;> unfold INT_MAX <;> omega

/-- Witness of C3: the state reached by pressing `'9'` at t = 0 and `'9'` at t = 100. -/
theorem pending_number_bounded_witness :
    (keyboard 57 100 (keyboard 57 0 initialState).state).state.currentInputNumber = 99 ∧
    (keyboard 57 200 (keyboard 57 100 (keyboard 57 0 initialState).state).state).state.currentInputNumber
      ≤ 118 :=
  ⟨by decide,
   ((pending_number_bounded (keyboard 57 100 (keyboard 57 0 initialState).state).state
      (Reachable.keyboard 57 100
        (Reachable.keyboard 57 0 Reachable.init
          (by decide : keyboard 57 0 initialState = Result.ok (keyboard 57 0 initialState).state))
        (by decide : keyboard 57 100 (keyboard 57 0 initialState).state
          = Result.ok (keyboard 57 100 (keyboard 57 0 initialState).state).state))).2.2.1
      57 200).2⟩

/-- C4: a digit keystroke that commits the number 0 makes `keyboard` read
`elementNames` at index -1, outside the array; a digit keystroke that commits
a number `n ≥ 1` reads it at index `n - 1`, which lies in `0..117`, and
`keyboard` returns. -/
theorem keyboard_lookup_index (key : Nat) (elapsed : Int) (s : State)
    (hkey : 48 ≤ key ∧ key ≤ 57) :
    ((keyboard key elapsed s).state.numElectrons = 0 →
      keyboard key elapsed s
        = Result.outOfBounds (keyboardCommit key (toUnsignedLong elapsed) s) (-1) ∧
      elementNamesAt (-1) = none) ∧
    (1 ≤ (keyboard key elapsed s).state.numElectrons →
      ∃ s' name, keyboard key elapsed s = Result.ok s' ∧
        s'.numElectrons = (keyboard key elapsed s).state.numElectrons ∧
        0 ≤ s'.numElectrons - 1 ∧ s'.numElectrons - 1 ≤ 117 ∧
        elementNamesAt (s'.numElectrons - 1) = some name) := by
  rw [(keyboard_state_of_digit key elapsed s hkey).2.1]
  constructor
  · intro hzero
    exact ⟨keyboard_of_digit_zero key elapsed s hkey hzero, by decide⟩
  · intro hpos
    obtain ⟨name, _, hat, _, hok⟩ := keyboard_of_digit_pos key elapsed s hkey hpos
    have hle := keyboardCommit_numElectrons_le key (toUnsignedLong elapsed) s
    exact ⟨_, name, hok, rfl, by dsimp only; omega, by dsimp only; omega, hat⟩

/-- Witness of C4: `'0'` pressed in the initial state commits 0 and reads
index -1; `'7'` commits 7 and reads index 6. -/
theorem keyboard_lookup_index_witness :
    (keyboard 48 0 initialState
      = Result.outOfBounds (keyboardCommit 48 (toUnsignedLong 0) initialState) (-1) ∧
      elementNamesAt (-1) = none) ∧
    (keyboardCommit 48 (toUnsignedLong 0) initialState).numElectrons = 0 ∧
    (keyboard 55 0 initialState).state.numElectrons = 7 ∧
    elementNamesAt (7 - 1) = some "Nitrogen" :=
  ⟨(keyboard_lookup_index 48 0 initialState (by decide)).1 (by decide), by decide, by decide,
    by decide⟩

/-- C5: a digit keystroke that commits a number `n` in `[1, 118]` (a committed
number never exceeds 118, so `1 ≤ n` is the whole condition) returns with
`numElectrons = n` and with the C string in `elementName` equal to the whole
of `elementNames[n-1]`; every name of the table has at most 19 characters, so
the 19-character copy truncates none. -/
theorem keyboard_element_name (key : Nat) (elapsed : Int) (s : State)
    (hkey : 48 ≤ key ∧ key ≤ 57)
    (h1 : 1 ≤ (keyboard key elapsed s).state.numElectrons) :
    (∃ s' name, keyboard key elapsed s = Result.ok s' ∧
      s'.numElectrons = (keyboard key elapsed s).state.numElectrons ∧
      elementNames.get? (s'.numElectrons - 1).toNat = some name ∧
      cstring s'.elementName = name.toList ∧ name.length ≤ 19) ∧
    (∀ name ∈ elementNames, name.length ≤ 19) := by
  refine ⟨?_, fun name hmem => (elementNames_fit name hmem).1⟩
  rw [(keyboard_state_of_digit key elapsed s hkey).2.1] at h1 ⊢
  obtain ⟨name, hmem, _, hget, hok⟩ := keyboard_of_digit_pos key elapsed s hkey h1
  obtain ⟨hlen, hno⟩ := elementNames_fit name hmem
  exact ⟨_, name, hok, rfl, hget, cstring_strncpy_set _ _ hno hlen, hlen⟩

/-- Witness of C5: `'1'`, `'0'`, `'4'` typed 100 ms apart select element 104,
the longest name of the table. -/
theorem keyboard_element_name_witness :
    (keyboard 52 200 (keyboard 48 100 (keyboard 49 0 initialState).state).state).state.numElectrons
      = 104 ∧
    ∃ s' name,
      keyboard 52 200 (keyboard 48 100 (keyboard 49 0 initialState).state).state = Result.ok s' ∧
      s'.numElectrons
        = (keyboard 52 200 (keyboard 48 100 (keyboard 49 0 initialState).state).state).state.numElectrons ∧
      elementNames.get? (s'.numElectrons - 1).toNat = some name ∧
      cstring s'.elementName = name.toList ∧ name.length ≤ 19 :=
  ⟨by decide,
   (keyboard_element_name 52 200 (keyboard 48 100 (keyboard 49 0 initialState).state).state
      (by decide) (by decide)).1⟩

/-! ## keyboard: sequences of digits -/

theorem keyboard_digit_ok (d : Nat) (elapsed : Int) (s : State) (hd : d ≤ 9)
    (hpos : 1 ≤ (keyboardCommit (48 + d) (toUnsignedLong elapsed) s).currentInputNumber) :
    ∃ s', keyboard (48 + d) elapsed s = Result.ok s' ∧
      s'.currentInputNumber
        = (keyboardCommit (48 + d) (toUnsignedLong elapsed) s).currentInputNumber ∧
      s'.numElectrons = (keyboardCommit (48 + d) (toUnsignedLong elapsed) s).currentInputNumber ∧
      s'.isInputtingNumber
        = (keyboardCommit (48 + d) (toUnsignedLong elapsed) s).isInputtingNumber ∧
      s'.lastDigitTime = toUnsignedLong elapsed := by
  rw [← keyboardCommit_numElectrons] at hpos
  obtain ⟨name, _, _, _, hok⟩ := keyboard_of_digit_pos (48 + d) elapsed s (by omega) hpos
  exact ⟨_, hok, rfl, keyboardCommit_numElectrons _ _ _, rfl, keyboardCommit_lastDigitTime _ _ _⟩

theorem runKeys_extend (strokes : List (Nat × Int)) :
    ∀ (s : State) (acc : Nat), s.isInputtingNumber = true → 1 ≤ acc →
      s.currentInputNumber = min (acc : Int) 118 → s.numElectrons = s.currentInputNumber →
      (∀ e ∈ strokes, e.1 ≤ 9) → WithinWindow s.lastDigitTime strokes →
      ∃ s', runKeys s (digitKeys strokes) = Result.ok s' ∧
        s'.numElectrons
          = min (((strokes.map Prod.fst).foldl (fun a d => 10 * a + d) acc : Nat) : Int) 118 := by
  induction strokes with
  | nil =>
    intro s acc _ _ hc hn _ _
    exact ⟨s, rfl, by rw [hn, hc]; rfl⟩
  | cons e rest ih =>
    intro s acc hflag hacc hc hn hdig hwin
    obtain ⟨d, elapsed⟩ := e
    obtain ⟨hle, hgap, hrest⟩ := hwin
    have hd : d ≤ 9 := hdig (d, elapsed) (List.mem_cons_self _ _)
    have hcond : subUnsignedLong (toUnsignedLong elapsed) s.lastDigitTime < inputDelay
        ∧ s.isInputtingNumber = true := by
      rw [subUnsignedLong_of_le _ _ hle (toUnsignedLong_lt elapsed)]
      exact ⟨hgap, hflag⟩
    obtain ⟨hval, hflag'⟩ := keyboardCommit_extend (48 + d) (toUnsignedLong elapsed) s hcond
    rw [wrapInt_digit s.currentInputNumber (48 + d) (by omega) (by omega) (by omega)] at hval
    have hval' : (keyboardCommit (48 + d) (toUnsignedLong elapsed) s).currentInputNumber
        = min (((10 * acc + d : Nat)) : Int) 118 := by
      rw [hval, hc]
      push_cast
      omega
    obtain ⟨s1, hok, h1c, h1n, h1f, h1t⟩ := keyboard_digit_ok d elapsed s hd (by rw [hval']; omega)
    obtain ⟨s', hrun, hsel⟩ := ih s1 (10 * acc + d) (by rw [h1f, hflag']) (by omega)
      (by rw [h1c, hval']) (by rw [h1n, h1c])
      (fun e he => hdig e (List.mem_cons_of_mem _ he)) (by rw [h1t]; exact hrest)
    refine ⟨s', ?_, hsel⟩
    simp only [digitKeys, List.map_cons, runKeys] at hrun ⊢
    rw [hok]
    exact hrun

/-- For a non-empty digit sequence whose first digit is not 0, typed with
each keystroke after the first less than 1500 ms after the previous one and
the first one starting a fresh accumulation, `keyboard` returns after every
keystroke and the final selection is the value of the digits clamped to
`[1, 118]`. -/
theorem runKeys_selection (s : State) (d0 : Nat) (t0 : Int) (rest : List (Nat × Int))
    (hfresh : ¬ (subUnsignedLong (toUnsignedLong t0) s.lastDigitTime < inputDelay
      ∧ s.isInputtingNumber = true))
    (hd0 : 1 ≤ d0 ∧ d0 ≤ 9) (hdig : ∀ e ∈ rest, e.1 ≤ 9)
    (hwin : WithinWindow (toUnsignedLong t0) rest) :
    ∃ s', runKeys s (digitKeys ((d0, t0) :: rest)) = Result.ok s' ∧
      s'.numElectrons = clampSelection (digitsValue (d0 :: rest.map Prod.fst)) := by
  obtain ⟨hval, hflag⟩ := keyboardCommit_fresh (48 + d0) (toUnsignedLong t0) s hfresh
  have hval' : (keyboardCommit (48 + d0) (toUnsignedLong t0) s).currentInputNumber
      = min ((d0 : Nat) : Int) 118 := by
    rw [hval]
    push_cast
    omega
  obtain ⟨s1, hok, h1c, h1n, h1f, h1t⟩ := keyboard_digit_ok d0 t0 s hd0.2 (by rw [hval']; omega)
  obtain ⟨s', hrun, hsel⟩ := runKeys_extend rest s1 d0 (by rw [h1f, hflag]) hd0.1
    (by rw [h1c, hval']) (by rw [h1n, h1c]) hdig (by rw [h1t]; exact hwin)
  refine ⟨s', ?_, ?_⟩
  · simp only [digitKeys, List.map_cons, runKeys] at hrun ⊢
    rw [hok]
    exact hrun
  · have hge : ∀ (l : List Nat) (a : Nat), 1 ≤ a → 1 ≤ l.foldl (fun a d => 10 * a + d) a := by
      intro l
      induction l with
      | nil => exact fun a ha => ha
      | cons x l ihl => exact fun a ha => ihl (10 * a + x) (by omega)
    have h1 := hge (rest.map Prod.fst) d0 hd0.1
    rw [hsel]
    unfold clampSelection digitsValue
    simp only [List.foldl_cons, Nat.mul_zero, Nat.zero_add]
    omega

/-- C1 at the input `"0"`: pressed in the initial state, where it starts a
fresh accumulation, the key `'0'` commits the selection 0 and `keyboard`
reads `elementNames[-1]`; the value of the digits clamped to `[1, 118]` is 1. -/
theorem keyboard_zero_selection :
    runKeys initialState (digitKeys [(0, 0)])
      = Result.outOfBounds (keyboardCommit 48 (toUnsignedLong 0) initialState) (-1) ∧
    (runKeys initialState (digitKeys [(0, 0)])).state.numElectrons = 0 ∧
    clampSelection (digitsValue [0]) = 1 ∧
    initialState.isInputtingNumber = false := by
  decide

/-! ## display: the shell loop -/

theorem shellLoop_step {F : Type} (ops : FloatOps F) (moving : Bool) (time : F)
    (fuel shell : Nat) (radius : F) (remaining : Int) (h : shell < 7 ∧ remaining > 0) :
    shellLoop ops moving time (fuel + 1) shell radius remaining =
      ({ shell := shell, orbitRadius := radius,
         electronsInThisShell := min (maxElectronsInShells.get ⟨shell, h.1⟩) remaining,
         electrons := (List.range (min (maxElectronsInShells.get ⟨shell, h.1⟩) remaining).toNat).map
           (drawElectron ops moving time radius
             (min (maxElectronsInShells.get ⟨shell, h.1⟩) remaining)) } ::
        (shellLoop ops moving time fuel (shell + 1) (ops.toFloat (ops.add radius ops.lit_0_4))
          (remaining - min (maxElectronsInShells.get ⟨shell, h.1⟩) remaining)).1,
       (shellLoop ops moving time fuel (shell + 1) (ops.toFloat (ops.add radius ops.lit_0_4))
          (remaining - min (maxElectronsInShells.get ⟨shell, h.1⟩) remaining)).2) := by
  have hmin : (if remaining > maxElectronsInShells.get ⟨shell, h.1⟩
      then maxElectronsInShells.get ⟨shell, h.1⟩ else remaining)
      = min (maxElectronsInShells.get ⟨shell, h.1⟩) remaining := by
    split_ifs <;> omega
  rw [shellLoop, dif_pos h]
  dsimp only
  rw [hmin]

theorem shellLoop_stop {F : Type} (ops : FloatOps F) (moving : Bool) (time : F)
    (fuel shell : Nat) (radius : F) (remaining : Int) (h : ¬ (shell < 7 ∧ remaining > 0)) :
    shellLoop ops moving time fuel shell radius remaining = ([], remaining) := by
  cases fuel with
  | zero => rfl
  | succ fuel => rw [shellLoop, dif_neg h]

theorem shellLoop_remaining {F : Type} (ops : FloatOps F) (moving : Bool) (time : F)
    (fuel : Nat) :
    ∀ (shell : Nat) (radius : F) (remaining : Int),
      (shellLoop ops moving time fuel shell radius remaining).2
        + ((shellLoop ops moving time fuel shell radius remaining).1.map
            (fun d => d.electronsInThisShell)).sum = remaining := by
  induction fuel with
  | zero =>
    intro shell radius remaining
    simp [shellLoop]
  | succ fuel ih =>
    intro shell radius remaining
    by_cases h : shell < 7 ∧ remaining > 0
    · rw [shellLoop_step ops moving time fuel shell radius remaining h]
      have := ih (shell + 1) (ops.toFloat (ops.add radius ops.lit_0_4))
        (remaining - min (maxElectronsInShells.get ⟨shell, h.1⟩) remaining)
      simp only [List.map_cons, List.sum_cons]
      omega
    · rw [shellLoop_stop ops moving time _ shell radius remaining h]
      simp

theorem capacity_facts_fin : ∀ i : Fin 7,
    0 < maxElectronsInShells.get i ∧
    innerCapacity (i.val + 1) = innerCapacity i.val + maxElectronsInShells.get i ∧
    0 ≤ innerCapacity i.val ∧
    innerCapacity i.val + maxElectronsInShells.get i ≤ 118 := by
  decide

theorem capacity_facts (shell : Nat) (h : shell < 7) :
    0 < maxElectronsInShells.get ⟨shell, h⟩ ∧
    innerCapacity (shell + 1) = innerCapacity shell + maxElectronsInShells.get ⟨shell, h⟩ ∧
    0 ≤ innerCapacity shell ∧
    innerCapacity shell + maxElectronsInShells.get ⟨shell, h⟩ ≤ 118 :=
  capacity_facts_fin ⟨shell, h⟩

theorem innerCapacity_seven : innerCapacity 7 = 118 := by decide

theorem innerCapacity_mono : ∀ a, a ≤ 7 → ∀ b, b ≤ 7 → a ≤ b → innerCapacity a ≤ innerCapacity b := by
  decide

theorem shellLoop_final {F : Type} (ops : FloatOps F) (moving : Bool) (time : F)
    (fuel : Nat) :
    ∀ (shell : Nat) (radius : F) (remaining : Int), shell ≤ 7 → 7 ≤ shell + fuel →
      0 ≤ remaining →
      (shellLoop ops moving time fuel shell radius remaining).2
        = max 0 (remaining - (118 - innerCapacity shell)) := by
  induction fuel with
  | zero =>
    intro shell radius remaining h7 hfuel hrem
    have : shell = 7 := by omega
    subst this
    rw [innerCapacity_seven]
    simp only [shellLoop]
    omega
  | succ fuel ih =>
    intro shell radius remaining h7 hfuel hrem
    by_cases h : shell < 7 ∧ remaining > 0
    · rw [shellLoop_step ops moving time fuel shell radius remaining h]
      have := ih (shell + 1) (ops.toFloat (ops.add radius ops.lit_0_4))
        (remaining - min (maxElectronsInShells.get ⟨shell, h.1⟩) remaining)
        (by omega) (by omega) (by omega)
      dsimp only
      rw [this]
      obtain ⟨hc0, hstep, hic0, hic1⟩ := capacity_facts shell h.1
      omega
    · rw [shellLoop_stop ops moving time _ shell radius remaining h]
      dsimp only
      by_cases hs : shell < 7
      · obtain ⟨hc0, hstep, hic0, hic1⟩ := capacity_facts shell hs
        omega
      · have : shell = 7 := by omega
        subst this
        rw [innerCapacity_seven]
        omega

theorem shellCount_nil {F : Type} (j : Nat) : shellCount ([] : List (ShellDraw F)) j = 0 := rfl

theorem shellCount_cons {F : Type} (d : ShellDraw F) (l : List (ShellDraw F)) (j : Nat) :
    shellCount (d :: l) j = if d.shell = j then d.electronsInThisShell else shellCount l j := by
  unfold shellCount
  by_cases h : d.shell = j
  · simp [List.find?_cons, h]
  · simp [List.find?_cons, h]

theorem shellLoop_count {F : Type} (ops : FloatOps F) (moving : Bool) (time : F)
    (fuel : Nat) :
    ∀ (shell : Nat) (radius : F) (remaining : Int) (j : Nat), shell ≤ 7 → 7 ≤ shell + fuel →
      0 ≤ remaining →
      shellCount (shellLoop ops moving time fuel shell radius remaining).1 j
        = if hj : shell ≤ j ∧ j < 7 then
            min (maxElectronsInShells.get ⟨j, hj.2⟩)
              (max 0 (remaining + innerCapacity shell - innerCapacity j))
          else 0 := by
  induction fuel with
  | zero =>
    intro shell radius remaining j h7 hfuel hrem
    rw [dif_neg (by omega)]
    rfl
  | succ fuel ih =>
    intro shell radius remaining j h7 hfuel hrem
    by_cases h : shell < 7 ∧ remaining > 0
    · rw [shellLoop_step ops moving time fuel shell radius remaining h]
      have hrec := ih (shell + 1) (ops.toFloat (ops.add radius ops.lit_0_4))
        (remaining - min (maxElectronsInShells.get ⟨shell, h.1⟩) remaining) j
        (by omega) (by omega) (by omega)
      dsimp only
      rw [shellCount_cons, hrec]
      dsimp only
      obtain ⟨hc0, hstep, hic0, hic1⟩ := capacity_facts shell h.1
      by_cases hsj : shell = j
      · subst hsj
        rw [if_pos rfl, dif_pos ⟨le_refl _, h.1⟩]
        omega
      · rw [if_neg hsj]
        by_cases hj : shell ≤ j ∧ j < 7
        · rw [dif_pos hj, dif_pos (by omega)]
          have hmono := innerCapacity_mono (shell + 1) (by omega) j (by omega) (by omega)
          obtain ⟨hj0, _, _, _⟩ := capacity_facts j hj.2
          omega
        · rw [dif_neg hj, dif_neg (by omega)]
    · rw [shellLoop_stop ops moving time _ shell radius remaining h]
      rw [shellCount_nil]
      by_cases hj : shell ≤ j ∧ j < 7
      · rw [dif_pos hj]
        have hmono := innerCapacity_mono shell (by omega) j (by omega) hj.1
        obtain ⟨hj0, _, _, _⟩ := capacity_facts j hj.2
        omega
      · rw [dif_neg hj]

theorem display_shells {F : Type} (ops : FloatOps F) (elapsed : Int) (s : State) :
    (display ops elapsed s).shells
      = (shellLoop ops s.electronsMoving (ops.toFloat (ops.div (ops.ofInt elapsed) ops.lit_1000))
          7 0 ops.baseOrbitRadius s.numElectrons).1 ∧
    (display ops elapsed s).remainingElectrons
      = (shellLoop ops s.electronsMoving (ops.toFloat (ops.div (ops.ofInt elapsed) ops.lit_1000))
          7 0 ops.baseOrbitRadius s.numElectrons).2 :=
  ⟨rfl, rfl⟩

/-- The loop of `display` never runs out of iterations: any larger bound
gives the same result. -/
theorem shellLoop_fuel {F : Type} (ops : FloatOps F) (moving : Bool) (time : F) (fuel : Nat) :
    ∀ (shell : Nat) (radius : F) (remaining : Int), 7 ≤ shell + fuel →
      shellLoop ops moving time (fuel + 1) shell radius remaining
        = shellLoop ops moving time fuel shell radius remaining := by
  induction fuel with
  | zero =>
    intro shell radius remaining hfuel
    rw [shellLoop_stop ops moving time 1 shell radius remaining (by omega)]
    rfl
  | succ fuel ih =>
    intro shell radius remaining hfuel
    by_cases h : shell < 7 ∧ remaining > 0
    · rw [shellLoop_step ops moving time (fuel + 1) shell radius remaining h,
        shellLoop_step ops moving time fuel shell radius remaining h, ih _ _ _ (by omega)]
    · rw [shellLoop_stop ops moving time _ shell radius remaining h,
        shellLoop_stop ops moving time _ shell radius remaining h]

/-! ## Claims about display -/

theorem electronsInShell_eq {F : Type} (ops : FloatOps F) (elapsed : Int) (s : State)
    (hn : 0 ≤ s.numElectrons) (shell : Nat) (h : shell < 7) :
    (display ops elapsed s).electronsInShell shell
      = min (maxElectronsInShells.get ⟨shell, h⟩)
          (max 0 (s.numElectrons - innerCapacity shell)) := by
  unfold Frame.electronsInShell
  rw [(display_shells ops elapsed s).1, shellLoop_count ops _ _ 7 0 _ _ shell (by omega)
    (by omega) hn, dif_pos ⟨Nat.zero_le _, h⟩]
  have h0 : innerCapacity 0 = 0 := by decide
  rw [h0, Int.add_zero]

/-- C7: for an electron count `n ≥ 0`, `display` places on shell `s` (0..6)
`min capacity[s] (max 0 (n - capacity[0] - ... - capacity[s-1]))` electrons,
with capacities 2, 8, 18, 32, 32, 18, 8; a shell is non-empty only if every
shell inside it is full; for `n = 12` the counts are 2, 8, 2, 0, 0, 0, 0. -/
theorem display_shell_filling {F : Type} (ops : FloatOps F) (elapsed : Int) (s : State)
    (hn : 0 ≤ s.numElectrons) :
    (∀ (shell : Nat) (h : shell < 7),
      (display ops elapsed s).electronsInShell shell
        = min (maxElectronsInShells.get ⟨shell, h⟩)
            (max 0 (s.numElectrons - innerCapacity shell))) ∧
    (∀ (shell inner : Nat) (h : shell < 7) (hin : inner < shell),
      0 < (display ops elapsed s).electronsInShell shell →
      (display ops elapsed s).electronsInShell inner
        = maxElectronsInShells.get ⟨inner, Nat.lt_trans hin h⟩) ∧
    maxElectronsInShells = [2, 8, 18, 32, 32, 18, 8] ∧
    (s.numElectrons = 12 →
      (List.range 7).map (display ops elapsed s).electronsInShell = [2, 8, 2, 0, 0, 0, 0]) := by
  have key := electronsInShell_eq ops elapsed s hn
  refine ⟨key, ?_, rfl, ?_⟩
  · intro shell inner h hin hpos
    have hlt : inner < 7 := Nat.lt_trans hin h
    rw [key shell h] at hpos
    rw [key inner hlt]
    obtain ⟨_, hstep, _, _⟩ := capacity_facts inner hlt
    have hmono := innerCapacity_mono (inner + 1) (by omega) shell (by omega) (by omega)
    omega
  · intro h12
    have e0 := key 0 (by decide)
    have e1 := key 1 (by decide)
    have e2 := key 2 (by decide)
    have e3 := key 3 (by decide)
    have e4 := key 4 (by decide)
    have e5 := key 5 (by decide)
    have e6 := key 6 (by decide)
    rw [h12] at e0 e1 e2 e3 e4 e5 e6
    simp only [List.range, List.range.loop, List.map_cons, List.map_nil, e0, e1, e2, e3, e4, e5, e6]
    decide

/-- Witness of C7: the frame drawn after typing `'1'`, `'2'` (12 electrons). -/
theorem display_shell_filling_witness :
    (keyboard 50 100 (keyboard 49 0 initialState).state).state.numElectrons = 12 ∧
    (List.range 7).map
      (display symbolicOps 0
        (keyboard 50 100 (keyboard 49 0 initialState).state).state).electronsInShell
      = [2, 8, 2, 0, 0, 0, 0] :=
  ⟨by decide,
   (display_shell_filling symbolicOps 0 (keyboard 50 100 (keyboard 49 0 initialState).state).state
      (by decide)).2.2.2 (by decide)⟩

/-- C8: for a selection `n` in `[0, 118]` the electron counts of the shells
`display` draws sum to `n` and its shell loop ends with
`remainingElectrons = 0`. -/
theorem display_all_electrons_placed {F : Type} (ops : FloatOps F) (elapsed : Int) (s : State)
    (h0 : 0 ≤ s.numElectrons) (h118 : s.numElectrons ≤ 118) :
    (display ops elapsed s).electronsPlaced = s.numElectrons ∧
    (display ops elapsed s).remainingElectrons = 0 ∧
    ((List.range 7).map (display ops elapsed s).electronsInShell).sum = s.numElectrons := by
  have hrem := shellLoop_remaining ops s.electronsMoving
    (ops.toFloat (ops.div (ops.ofInt elapsed) ops.lit_1000)) 7 0 ops.baseOrbitRadius s.numElectrons
  have hfin := shellLoop_final ops s.electronsMoving
    (ops.toFloat (ops.div (ops.ofInt elapsed) ops.lit_1000)) 7 0 ops.baseOrbitRadius s.numElectrons
    (by omega) (by omega) h0
  have hz : innerCapacity 0 = 0 := by decide
  rw [hz] at hfin
  unfold Frame.electronsPlaced
  rw [(display_shells ops elapsed s).1, (display_shells ops elapsed s).2]
  refine ⟨by omega, by omega, ?_⟩
  have key := electronsInShell_eq ops elapsed s h0
  have e0 := key 0 (by decide)
  have e1 := key 1 (by decide)
  have e2 := key 2 (by decide)
  have e3 := key 3 (by decide)
  have e4 := key 4 (by decide)
  have e5 := key 5 (by decide)
  have e6 := key 6 (by decide)
  have c0 : innerCapacity 0 = 0 := by decide
  have c1 : innerCapacity 1 = 2 := by decide
  have c2 : innerCapacity 2 = 10 := by decide
  have c3 : innerCapacity 3 = 28 := by decide
  have c4 : innerCapacity 4 = 60 := by decide
  have c5 : innerCapacity 5 = 92 := by decide
  have c6 : innerCapacity 6 = 110 := by decide
  rw [c0] at e0
  rw [c1] at e1
  rw [c2] at e2
  rw [c3] at e3
  rw [c4] at e4
  rw [c5] at e5
  rw [c6] at e6
  simp only [List.range, List.range.loop, List.map_cons, List.map_nil, List.sum_cons,
    List.sum_nil, e0, e1, e2, e3, e4, e5, e6, maxElectronsInShells, List.get]
  omega

/-- Witness of C8: the frame drawn after typing `'1'`, `'1'`, `'8'` (118 electrons). -/
theorem display_all_electrons_placed_witness :
    (keyboard 56 200 (keyboard 49 100 (keyboard 49 0 initialState).state).state).state.numElectrons
      = 118 ∧
    (display symbolicOps 0
      (keyboard 56 200 (keyboard 49 100 (keyboard 49 0 initialState).state).state).state).electronsPlaced
      = 118 ∧
    (display symbolicOps 0
      (keyboard 56 200 (keyboard 49 100 (keyboard 49 0 initialState).state).state).state).remainingElectrons
      = 0 :=
  have h := display_all_electrons_placed symbolicOps 0
    (keyboard 56 200 (keyboard 49 100 (keyboard 49 0 initialState).state).state).state
    (by decide) (by decide)
  ⟨by decide, h.1.trans (by decide), h.2.1⟩

theorem reachable_numElectrons (s : State) (h : Reachable s) :
    1 ≤ s.numElectrons ∧ s.numElectrons ≤ 118 := by
  induction h with
  | init => exact ⟨by decide, by decide⟩
  | @keyboard s s' key elapsed hr hstep ih =>
    by_cases hkey : 48 ≤ key ∧ key ≤ 57
    · have hn := (keyboard_state_of_digit key elapsed s hkey).2.1
      have hle := keyboardCommit_numElectrons_le key (toUnsignedLong elapsed) s
      have hge := (keyboard_pendingInRange key elapsed s (reachable_pendingInRange s hr)).1
      rw [(keyboard_state_of_digit key elapsed s hkey).1, ← keyboardCommit_numElectrons] at hge
      rw [hstep] at hn
      have hn' : s'.numElectrons = (keyboardCommit key (toUnsignedLong elapsed) s).numElectrons := hn
      refine ⟨?_, by omega⟩
      by_contra hlt
      have hidx : wrapInt ((keyboardCommit key (toUnsignedLong elapsed) s).numElectrons - 1) < 0 := by
        unfold wrapInt
        omega
      unfold keyboard at hstep
      rw [if_pos hkey] at hstep
      dsimp only at hstep
      rw [elementNamesAt_none _ hidx] at hstep
      exact Result.noConfusion hstep
    · unfold keyboard at hstep
      rw [if_neg hkey] at hstep
      injection hstep with hs
      rw [← hs]
      exact ih
  | subMenu option _ ih =>
    rw [subMenu_frame]
    exact ih

theorem shellLoop_flag {F : Type} (ops : FloatOps F) (b b' : Bool) (time : F) (fuel : Nat) :
    ∀ (shell : Nat) (radius : F) (remaining : Int),
      (shellLoop ops b time fuel shell radius remaining).1.map ShellDraw.layout
        = (shellLoop ops b' time fuel shell radius remaining).1.map ShellDraw.layout ∧
      (shellLoop ops b time fuel shell radius remaining).2
        = (shellLoop ops b' time fuel shell radius remaining).2 ∧
      ∀ j, shellCount (shellLoop ops b time fuel shell radius remaining).1 j
        = shellCount (shellLoop ops b' time fuel shell radius remaining).1 j := by
  induction fuel with
  | zero =>
    intro shell radius remaining
    exact ⟨rfl, rfl, fun _ => rfl⟩
  | succ fuel ih =>
    intro shell radius remaining
    by_cases h : shell < 7 ∧ remaining > 0
    · obtain ⟨h1, h2, h3⟩ := ih (shell + 1) (ops.toFloat (ops.add radius ops.lit_0_4))
        (remaining - min (maxElectronsInShells.get ⟨shell, h.1⟩) remaining)
      rw [shellLoop_step ops b time fuel shell radius remaining h,
        shellLoop_step ops b' time fuel shell radius remaining h]
      refine ⟨?_, h2, fun j => ?_⟩
      · simp only [List.map_cons, h1, ShellDraw.layout, List.length_map]
      · rw [shellCount_cons, shellCount_cons, h3 j]
    · rw [shellLoop_stop ops b time _ shell radius remaining h,
        shellLoop_stop ops b' time _ shell radius remaining h]
      exact ⟨rfl, rfl, fun _ => rfl⟩

theorem shellLoop_electrons {F : Type} (ops : FloatOps F) (b : Bool) (time : F) (fuel : Nat) :
    ∀ (shell : Nat) (radius : F) (remaining : Int),
      ∀ d ∈ (shellLoop ops b time fuel shell radius remaining).1,
        d.electrons = (List.range d.electronsInThisShell.toNat).map
          (drawElectron ops b time d.orbitRadius d.electronsInThisShell) := by
  induction fuel with
  | zero =>
    intro shell radius remaining d hd
    simp [shellLoop] at hd
  | succ fuel ih =>
    intro shell radius remaining d hd
    by_cases h : shell < 7 ∧ remaining > 0
    · rw [shellLoop_step ops b time fuel shell radius remaining h] at hd
      rcases List.mem_cons.mp hd with hhead | htail
      · rw [hhead]
      · exact ih _ _ _ d htail
    · rw [shellLoop_stop ops b time _ shell radius remaining h] at hd
      simp at hd

/-- C9: `subMenu` with any option changes no global but `electronsMoving`
(set to false by option 1, to true by option 2); what `display` draws apart
from the electrons' positions (shells, orbit radii, electron counts, text)
does not depend on the flag; and in every frame the angle of electron `i` of
a shell with `k` electrons is `(2 * M_PI / k) * i`, with `time * 0.9` added
to it exactly when the flag is set. -/
theorem subMenu_only_electronsMoving {F : Type} (ops : FloatOps F) (elapsed : Int)
    (option : Int) (s : State) :
    (subMenu option s).numElectrons = s.numElectrons ∧
    (subMenu option s).elementName = s.elementName ∧
    (subMenu option s).currentInputNumber = s.currentInputNumber ∧
    (subMenu option s).isInputtingNumber = s.isInputtingNumber ∧
    (subMenu option s).lastDigitTime = s.lastDigitTime ∧
    subMenu option s = { s with electronsMoving := (subMenu option s).electronsMoving } ∧
    (subMenu option s).electronsMoving
      = (if option = 2 then true else if option = 1 then false else s.electronsMoving) ∧
    (∀ b : Bool,
      (display ops elapsed { s with electronsMoving := b }).shells.map ShellDraw.layout
        = (display ops elapsed s).shells.map ShellDraw.layout ∧
      (∀ shell, (display ops elapsed { s with electronsMoving := b }).electronsInShell shell
        = (display ops elapsed s).electronsInShell shell) ∧
      (display ops elapsed { s with electronsMoving := b }).remainingElectrons
        = (display ops elapsed s).remainingElectrons ∧
      (display ops elapsed { s with electronsMoving := b }).text = (display ops elapsed s).text ∧
      (display ops elapsed { s with electronsMoving := b }).errorText
        = (display ops elapsed s).errorText) ∧
    (∀ d ∈ (display ops elapsed s).shells,
      d.electrons.map (fun e => e.angle)
        = (List.range d.electronsInThisShell.toNat).map (fun i =>
            ops.toFloat
              (if s.electronsMoving = true then
                ops.add (ops.mul (ops.toFloat (ops.div (ops.ofInt elapsed) ops.lit_1000)) ops.lit_0_9)
                  (baseAngle ops d.electronsInThisShell i)
               else baseAngle ops d.electronsInThisShell i)) ∧
      ∀ e ∈ d.electrons, e.x = ops.toFloat (ops.mul d.orbitRadius (ops.cos e.angle)) ∧
        e.y = ops.toFloat (ops.mul d.orbitRadius (ops.sin e.angle))) := by
  have hframe := subMenu_frame option s
  refine ⟨by rw [hframe], by rw [hframe], by rw [hframe], by rw [hframe], by rw [hframe],
    hframe, ?_, ?_, ?_⟩
  · unfold subMenu
    dsimp only
    split_ifs <;> rfl
  · intro b
    obtain ⟨h1, h2, h3⟩ := shellLoop_flag ops b s.electronsMoving
      (ops.toFloat (ops.div (ops.ofInt elapsed) ops.lit_1000)) 7 0 ops.baseOrbitRadius
      s.numElectrons
    exact ⟨h1, h3, h2, rfl, rfl⟩
  · intro d hd
    rw [(display_shells ops elapsed s).1] at hd
    have hel := shellLoop_electrons ops _ _ _ _ _ _ d hd
    constructor
    · rw [hel, List.map_map]
      apply List.map_congr_left
      intro i _
      simp only [Function.comp, drawElectron, electronAngle]
      cases s.electronsMoving <;> simp
    · intro e he
      rw [hel] at he
      obtain ⟨i, _, hi⟩ := List.mem_map.mp he
      rw [← hi]
      exact ⟨rfl, rfl⟩

/-! ## The element table -/

set_option maxRecDepth 100000 in
/-- C6: `elementNames` has exactly 118 entries, and for every atomic number
`n` in `[1, 118]` the entry `elementNames[n-1]` is the name the periodic
table gives to element `n`; in particular 1 is Hydrogen, 6 is Carbon and 118
is Oganesson. -/
theorem elementNames_correct :
    elementNames.length = 118 ∧
    (∀ n, n < 119 → 1 ≤ n →
      (periodicTable.get? (n - 1)).map (fun e => e.1) = some n ∧
      elementNames.get? (n - 1) = (periodicTable.get? (n - 1)).map (fun e => e.2.2)) ∧
    elementNamesAt (1 - 1) = some "Hydrogen" ∧
    elementNamesAt (6 - 1) = some "Carbon" ∧
    elementNamesAt (118 - 1) = some "Oganesson" := by
  decide

/-! ## The orbit radius -/

/-- The shell loop draws shell `j` as its `j`-th orbit, with the radius
obtained from `baseOrbitRadius` by `j` float additions of the literal `0.4f`. -/
theorem shellLoop_orbitRadius {F : Type} (ops : FloatOps F) (b : Bool) (time : F) (fuel : Nat) :
    ∀ (shell : Nat) (radius : F) (remaining : Int) (j : Nat) (d : ShellDraw F),
      (shellLoop ops b time fuel shell radius remaining).1.get? j = some d →
      d.shell = shell + j ∧
      d.orbitRadius = (fun r => ops.toFloat (ops.add r ops.lit_0_4))^[j] radius := by
  induction fuel with
  | zero =>
    intro shell radius remaining j d hd
    simp [shellLoop] at hd
  | succ fuel ih =>
    intro shell radius remaining j d hd
    by_cases h : shell < 7 ∧ remaining > 0
    · rw [shellLoop_step ops b time fuel shell radius remaining h] at hd
      cases j with
      | zero =>
        simp only [List.get?_cons_zero, Option.some.injEq] at hd
        rw [← hd]
        exact ⟨rfl, rfl⟩
      | succ j =>
        simp only [List.get?_cons_succ] at hd
        obtain ⟨h1, h2⟩ := ih _ _ _ j d hd
        exact ⟨by omega, by rw [h2, Function.iterate_succ_apply]⟩
    · rw [shellLoop_stop ops b time _ shell radius remaining h] at hd
      simp at hd

theorem shellLoop_shell_lt {F : Type} (ops : FloatOps F) (b : Bool) (time : F) (fuel : Nat) :
    ∀ (shell : Nat) (radius : F) (remaining : Int),
      ∀ d ∈ (shellLoop ops b time fuel shell radius remaining).1, d.shell < 7 := by
  induction fuel with
  | zero =>
    intro shell radius remaining d hd
    simp [shellLoop] at hd
  | succ fuel ih =>
    intro shell radius remaining d hd
    by_cases h : shell < 7 ∧ remaining > 0
    · rw [shellLoop_step ops b time fuel shell radius remaining h] at hd
      rcases List.mem_cons.mp hd with hhead | htail
      · rw [hhead]
        exact h.1
      · exact ih _ _ _ d htail
    · rw [shellLoop_stop ops b time _ shell radius remaining h] at hd
      simp at hd

/-! ## The orbit radius in binary32 arithmetic -/

/-- `roundHalfEven x` is an integer nearest to `x`, and the even one on a tie. -/
theorem roundHalfEven_spec (x : ℚ) :
    |(roundHalfEven x : ℚ) - x| ≤ 1 / 2 ∧
    (|(roundHalfEven x : ℚ) - x| = 1 / 2 → roundHalfEven x % 2 = 0) := by
  have h1 := Int.floor_le x
  have h2 := Int.lt_floor_add_one x
  unfold roundHalfEven
  split_ifs with ha hb hc
  · refine ⟨by rw [abs_le]; constructor <;> linarith, fun h => ?_⟩
    rw [abs_sub_comm, abs_of_nonneg (by linarith)] at h
    linarith
  · refine ⟨by push_cast; rw [abs_le]; constructor <;> linarith, fun h => ?_⟩
    push_cast at h
    rw [abs_of_nonneg (by linarith)] at h
    linarith
  · exact ⟨by rw [abs_le]; constructor <;> linarith, fun _ => hc⟩
  · refine ⟨by push_cast; rw [abs_le]; constructor <;> linarith, fun _ => ?_⟩
    omega

theorem log2_quotient_bounds (n m : ℕ) (hm : 0 < m) (h : m ≤ n) :
    (2 : ℚ) ^ ((Nat.log2 (n / m) : ℕ) : ℤ) ≤ (n : ℚ) / m ∧
    (n : ℚ) / m < (2 : ℚ) ^ (((Nat.log2 (n / m) : ℕ) : ℤ) + 1) := by
  have hmq : (0 : ℚ) < m := by exact_mod_cast hm
  have hq0 : n / m ≠ 0 := by
    have := Nat.div_pos h hm
    omega
  have hlo := Nat.log2_self_le hq0
  have hhi := @Nat.lt_log2_self (n / m)
  have hdiv1 : (n / m) * m ≤ n := Nat.div_mul_le_self n m
  have hdiv2 : n < (n / m + 1) * m :=
    (Nat.div_lt_iff_lt_mul hm).mp (Nat.lt_succ_iff.mpr (le_refl (n / m)))
  constructor
  · rw [zpow_natCast, le_div_iff₀ hmq]
    have : 2 ^ (n / m).log2 * m ≤ n := le_trans (Nat.mul_le_mul_right _ hlo) hdiv1
    exact_mod_cast this
  · have hcast : ((Nat.log2 (n / m) : ℤ) + 1) = ((Nat.log2 (n / m) + 1 : ℕ) : ℤ) := by
      push_cast; ring
    rw [hcast, zpow_natCast, div_lt_iff₀ hmq]
    have : n < 2 ^ ((n / m).log2 + 1) * m :=
      lt_of_lt_of_le hdiv2 (Nat.mul_le_mul_right _ hhi)
    exact_mod_cast this

theorem log2_reciprocal_bounds (n m : ℕ) (hn : 0 < n) (h : n < m) :
    (2 : ℚ) ^ (-(((Nat.log2 ((m + n - 1) / n - 1) + 1 : ℕ)) : ℤ)) ≤ (n : ℚ) / m ∧
    (n : ℚ) / m < (2 : ℚ) ^ (-(((Nat.log2 ((m + n - 1) / n - 1) + 1 : ℕ)) : ℤ) + 1) := by
  have hm : 0 < m := by omega
  have hmq : (0 : ℚ) < m := by exact_mod_cast hm
  have hc1 : ((m + n - 1) / n) * n ≤ m + n - 1 := Nat.div_mul_le_self _ _
  have hc2 : m + n - 1 < ((m + n - 1) / n + 1) * n :=
    (Nat.div_lt_iff_lt_mul hn).mp (Nat.lt_succ_iff.mpr (le_refl _))
  have hc3 : 2 ≤ (m + n - 1) / n := by
    rw [Nat.le_div_iff_mul_le hn]
    omega
  obtain ⟨c, hc⟩ : ∃ c, (m + n - 1) / n = c + 1 := ⟨(m + n - 1) / n - 1, by omega⟩
  rw [hc] at hc1 hc2 hc3
  rw [hc, Nat.add_sub_cancel]
  have hc0 : c ≠ 0 := by omega
  have hlo := Nat.log2_self_le hc0
  have hhi := @Nat.lt_log2_self c
  have hm_le : m ≤ (c + 1) * n := by
    have : (c + 1 + 1) * n = (c + 1) * n + n := by ring
    omega
  have hm_gt : c * n < m := by
    have : (c + 1) * n = c * n + n := by ring
    omega
  have h2 : (0 : ℚ) < 2 ^ (c.log2 + 1) := by positivity
  have h2' : (0 : ℚ) < 2 ^ c.log2 := by positivity
  constructor
  · rw [zpow_neg, zpow_natCast, inv_eq_one_div, div_le_div_iff₀ h2 hmq, one_mul]
    have : m ≤ n * 2 ^ (c.log2 + 1) := by
      calc m ≤ (c + 1) * n := hm_le
        _ ≤ 2 ^ (c.log2 + 1) * n := Nat.mul_le_mul_right _ hhi
        _ = n * 2 ^ (c.log2 + 1) := Nat.mul_comm _ _
    exact_mod_cast this
  · have hcast : (-(((c.log2 + 1 : ℕ)) : ℤ) + 1) = -((c.log2 : ℕ) : ℤ) := by
      push_cast; ring
    rw [hcast, zpow_neg, zpow_natCast, inv_eq_one_div, div_lt_div_iff₀ hmq h2', one_mul]
    have : n * 2 ^ c.log2 < m := by
      calc n * 2 ^ c.log2 ≤ n * c := Nat.mul_le_mul_left _ hlo
        _ = c * n := Nat.mul_comm _ _
        _ < m := hm_gt
    exact_mod_cast this

/-- `binaryExponent x` is the exponent of the binade of a positive `x`. -/
theorem binaryExponent_spec (x : ℚ) (hx : 0 < x) :
    (2 : ℚ) ^ binaryExponent x ≤ x ∧ x < (2 : ℚ) ^ (binaryExponent x + 1) := by
  have hnum : 0 < x.num := Rat.num_pos.mpr hx
  have hden : 0 < x.den := x.den_pos
  obtain ⟨n, hn⟩ : ∃ n : ℕ, x.num = n := ⟨x.num.toNat, by omega⟩
  have hn0 : 0 < n := by omega
  have hdq : (0 : ℚ) < x.den := by exact_mod_cast hden
  have hxe : (n : ℚ) / (x.den : ℚ) = x := by
    have := Rat.num_div_den x
    rw [hn, Int.cast_natCast] at this
    exact this
  unfold binaryExponent
  rw [hn]
  simp only [Int.toNat_ofNat]
  by_cases h1 : 1 ≤ x
  · rw [if_pos h1]
    have hle : x.den ≤ n := by
      rw [← hxe, le_div_iff₀ hdq, one_mul] at h1
      exact_mod_cast h1
    have := log2_quotient_bounds n x.den hden hle
    rw [hxe] at this
    exact this
  · rw [if_neg h1]
    have hlt : n < x.den := by
      rw [← hxe, not_le, div_lt_iff₀ hdq, one_mul] at h1
      exact_mod_cast h1
    have hc3 : ¬ (x.den + n - 1) / n ≤ 1 := by
      have : 2 ≤ (x.den + n - 1) / n := by
        rw [Nat.le_div_iff_mul_le hn0]
        omega
      omega
    have := log2_reciprocal_bounds n x.den hn0 hlt
    rw [hxe] at this
    rw [if_neg hc3]
    exact this

/-- `roundBinary` yields a multiple of the unit in the last place nearest to
`x`: the error is at most half a unit, and on a tie the multiple is even. -/
theorem roundBinary_spec (precision : Nat) (emin : Int) (x : ℚ) (hx : x ≠ 0) :
    ∃ n : ℤ,
      roundBinary precision emin x
        = n * (2 : ℚ) ^ (max (binaryExponent |x|) emin - ((precision : Int) - 1)) ∧
      |roundBinary precision emin x - x|
        ≤ (2 : ℚ) ^ (max (binaryExponent |x|) emin - ((precision : Int) - 1)) / 2 ∧
      (|roundBinary precision emin x - x|
        = (2 : ℚ) ^ (max (binaryExponent |x|) emin - ((precision : Int) - 1)) / 2 → n % 2 = 0) := by
  have hu : (0 : ℚ) < (2 : ℚ) ^ (max (binaryExponent |x|) emin - ((precision : Int) - 1)) := by
    positivity
  unfold roundBinary
  rw [if_neg hx]
  dsimp only
  generalize (2 : ℚ) ^ (max (binaryExponent |x|) emin - ((precision : Int) - 1)) = u at *
  obtain ⟨hnear, htie⟩ := roundHalfEven_spec (x / u)
  have hscale : (roundHalfEven (x / u) : ℚ) * u - x = ((roundHalfEven (x / u) : ℚ) - x / u) * u := by
    field_simp
  refine ⟨roundHalfEven (x / u), rfl, ?_, fun h => htie ?_⟩
  · rw [hscale, abs_mul, abs_of_pos hu]
    nlinarith
  · rw [hscale, abs_mul, abs_of_pos hu] at h
    exact mul_right_cancel₀ (ne_of_gt hu) (h.trans (by ring))

/-- The literal `0.4f` is the float with bit pattern `0x3ECCCCCD`. -/
theorem roundBinary32_lit_0_4 : roundBinary32 (2 / 5) = 13421773 / 33554432 := by
  decide!

/-- Values halfway between two floats go to the one with even significand. -/
theorem roundBinary32_ties :
    roundBinary32 1 = 1 ∧
    roundBinary32 (1 + 1 / 16777216) = 1 ∧
    roundBinary32 (1 + 3 / 16777216) = 1 + 2 / 8388608 ∧
    roundBinary32 (1 + 13421773 / 33554432) = 11744051 / 8388608 := by
  decide!

theorem radiusAfter_values :
    (List.range 7).map radiusAfter
      = [1, 11744051 / 8388608, 15099494 / 8388608, 9227469 / 4194304, 10905191 / 4194304,
         12582913 / 4194304, 14260635 / 4194304] := by
  decide!

theorem iterate_radiusAfter (ops : FloatOps ℚ) (hlit : ops.lit_0_4 = roundBinary32 (2 / 5))
    (hadd : ∀ a b, ops.toFloat (ops.add a b) = roundBinary32 (a + b)) (s : Nat) :
    (fun r => ops.toFloat (ops.add r ops.lit_0_4))^[s] 1 = radiusAfter s := by
  induction s with
  | zero => rfl
  | succ s ih =>
    rw [Function.iterate_succ_apply', ih, hadd, hlit]
    rfl

theorem radiusAfter_facts : ∀ j, j < 7 →
    ([1, 11744051 / 8388608, 15099494 / 8388608, 9227469 / 4194304, 10905191 / 4194304,
      12582913 / 4194304, 14260635 / 4194304] : List ℚ).get? j = some (radiusAfter j) ∧
    |radiusAfter j - (1 + 2 / 5 * (j : ℚ))| ≤ 7 / 5 * (1 / 4194304) ∧
    (radiusAfter j = 1 + 2 / 5 * (j : ℚ) ↔ j = 0) := by
  decide!

theorem display_shell_radius (ops : FloatOps ℚ) (hbase : ops.baseOrbitRadius = 1)
    (hlit : ops.lit_0_4 = roundBinary32 (2 / 5))
    (hadd : ∀ a b, ops.toFloat (ops.add a b) = roundBinary32 (a + b))
    (elapsed : Int) (s : State) (d : ShellDraw ℚ) (hd : d ∈ (display ops elapsed s).shells) :
    d.shell < 7 ∧ d.orbitRadius = radiusAfter d.shell := by
  rw [(display_shells ops elapsed s).1] at hd
  refine ⟨shellLoop_shell_lt ops _ _ _ _ _ _ d hd, ?_⟩
  obtain ⟨j, hj⟩ := List.mem_iff_get?.mp hd
  obtain ⟨hshell, hradius⟩ := shellLoop_orbitRadius ops _ _ _ _ _ _ j d hj
  rw [hradius, hbase, iterate_radiusAfter ops hlit hadd, hshell, Nat.zero_add]

/-- C10, amended: with `float` arithmetic being IEEE 754 binary32 (the literal
`0.4f` the float nearest to 0.4, a float addition the correctly rounded sum),
the orbit radius `display` uses for a shell `s` it draws is the result of `s`
successive float additions of `0.4f` to `1.0f`, namely 1, 11744051/2^23,
15099494/2^23, 9227469/2^22, 10905191/2^22, 12582913/2^22 and 14260635/2^22
for `s` = 0..6; it is within 1.4 * 2^-22 of `1.0 + 0.4*s`, and equal to it
only for `s = 0`. -/
theorem display_orbitRadius_binary32 (ops : FloatOps ℚ) (hbase : ops.baseOrbitRadius = 1)
    (hlit : ops.lit_0_4 = roundBinary32 (2 / 5))
    (hadd : ∀ a b, ops.toFloat (ops.add a b) = roundBinary32 (a + b))
    (elapsed : Int) (s : State) (d : ShellDraw ℚ) (hd : d ∈ (display ops elapsed s).shells) :
    d.shell < 7 ∧
    d.orbitRadius = radiusAfter d.shell ∧
    ([1, 11744051 / 8388608, 15099494 / 8388608, 9227469 / 4194304, 10905191 / 4194304,
      12582913 / 4194304, 14260635 / 4194304] : List ℚ).get? d.shell = some d.orbitRadius ∧
    |d.orbitRadius - (1 + 2 / 5 * (d.shell : ℚ))| ≤ 7 / 5 * (1 / 4194304) ∧
    (d.orbitRadius = 1 + 2 / 5 * (d.shell : ℚ) ↔ d.shell = 0) := by
  obtain ⟨hlt, hradius⟩ := display_shell_radius ops hbase hlit hadd elapsed s d hd
  rw [hradius]
  exact ⟨hlt, rfl, radiusAfter_facts d.shell hlt⟩

/-- Witness of C10, amended: the frame drawn for 118 electrons has a shell 5,
drawn at radius `3 + 2^-22`. -/
theorem display_orbitRadius_binary32_witness :
    ∃ d ∈ (display binary32Ops 0
        (runKeys initialState (digitKeys [(1, 0), (1, 100), (8, 200)])).state).shells,
      d.shell = 5 ∧ d.orbitRadius = 3 + 1 / 4194304 ∧
      |d.orbitRadius - (1 + 2 / 5 * (d.shell : ℚ))| ≤ 7 / 5 * (1 / 4194304) := by
  have hlen : 5 < (display binary32Ops 0
      (runKeys initialState (digitKeys [(1, 0), (1, 100), (8, 200)])).state).shells.length := by
    decide!
  have hmem := List.get_mem (display binary32Ops 0
      (runKeys initialState (digitKeys [(1, 0), (1, 100), (8, 200)])).state).shells 5 hlen
  have h := display_orbitRadius_binary32 binary32Ops rfl rfl (fun _ _ => rfl) 0
    (runKeys initialState (digitKeys [(1, 0), (1, 100), (8, 200)])).state _ hmem
  have hshell := (shellLoop_orbitRadius binary32Ops _ _ _ _ _ _ 5 _ (List.get?_eq_get hlen)).1
  rw [Nat.zero_add] at hshell
  refine ⟨_, hmem, hshell, ?_, h.2.2.2.1⟩
  rw [h.2.1, hshell]
  decide!

/-- C10 as stated fails: for 118 electrons `display` draws shell 5 with the
orbit radius `12582913 / 2^22 = 3 + 2^-22`, not `1.0 + 0.4 * 5 = 3`; and it
draws shell 1 with the float `11744051 / 2^23`, not `1.4`. -/
theorem display_orbitRadius_counterexample :
    ((display binary32Ops 0
        (runKeys initialState (digitKeys [(1, 0), (1, 100), (8, 200)])).state).shells.map
      (fun d => (d.shell, d.orbitRadius))).get? 5 = some (5, 12582913 / 4194304) ∧
    (12582913 / 4194304 : ℚ) ≠ 1 + 2 / 5 * 5 ∧
    ((display binary32Ops 0
        (runKeys initialState (digitKeys [(1, 0), (1, 100), (8, 200)])).state).shells.map
      (fun d => (d.shell, d.orbitRadius))).get? 1 = some (1, 11744051 / 8388608) ∧
    (11744051 / 8388608 : ℚ) ≠ 1 + 2 / 5 * 1 := by
  decide!

end AtomSimulator
